import Mathlib

/-!
# Verification of the todo-list application (src/index.js)

A shallow embedding of the core logic of `src/index.js`:

* JavaScript strings are modelled as lists of characters (`Str`), so that
  `String.prototype.trim`, `toLowerCase` and `includes` become executable
  list functions (`trimStr`, `lowerStr`, `includesStr`).
* The in-memory collection `todos` is a `List Item`.
* The durable store (`localStorage` holding one JSON text under a fixed key)
  is modelled at the level of JSON values: a stored cell is
  `Option (Except Unit JValue)` — `none` for an absent key, `.error` for a
  text that `JSON.parse` rejects, `.ok v` for a text that parses to `v`.
  `JSON.stringify` followed by `JSON.parse` is the identity on this domain,
  so `saveTodos` stores the encoded value directly.
* Each DOM event handler becomes a total function on an explicit
  application state (`AppState`), and the reachable states of the system
  are described by the step relation `Step`.
-/

namespace TodoApp

/-- JavaScript strings, modelled as lists of characters. -/
abbrev Str := List Char

/-- Whitespace test used by `String.prototype.trim`. -/
def isWS (c : Char) : Bool := c.isWhitespace

/-- Embedding of `value.trim()`: drop leading and trailing whitespace. -/
def trimStr (s : Str) : Str :=
  ((s.dropWhile isWS).reverse.dropWhile isWS).reverse

/-- Embedding of `s.toLowerCase()`. -/
def lowerStr (s : Str) : Str := s.map Char.toLower

/-- `leadsWith needle hay`: `hay` starts with `needle`. -/
def leadsWith : Str → Str → Bool
  | [], _ => true
  | _ :: _, [] => false
  | a :: as, b :: bs => a == b && leadsWith as bs

/-- Auxiliary scan for `includesStr`. -/
def hasSub (needle : Str) : Str → Bool
  | [] => needle.isEmpty
  | c :: cs => leadsWith needle (c :: cs) || hasSub needle cs

/-- Embedding of `hay.includes(needle)` (substring containment). -/
def includesStr (hay needle : Str) : Bool := hasSub needle hay

/-- One todo item: `{ id, title, completed }` (src/index.js line 3). -/
structure Item where
  id : Str
  title : Str
  completed : Bool
deriving DecidableEq

/-- The error taxonomy of the specification (§7). The code signals these
by `alert` and an early return; the embedding returns them explicitly. -/
inductive Err where
  | EmptyTitle
  | DuplicateTitle
  | NotFound
deriving DecidableEq

/-- The status filter `all | active | completed` (src/index.js line 13). -/
inductive Filter where
  | all
  | active
  | completed
deriving DecidableEq

/-- The projection computed at the top of `renderTodos`
(src/index.js lines 52–62): status filter first, then the
case-insensitive substring search over the trimmed query. -/
def project (todos : List Item) (filter : Filter) (searchQuery : Str) : List Item :=
  let shown := todos
  let shown := if filter = Filter.active then shown.filter (fun t => !t.completed) else shown
  let shown := if filter = Filter.completed then shown.filter (fun t => t.completed) else shown
  if trimStr searchQuery ≠ [] then
    let q := lowerStr (trimStr searchQuery)
    shown.filter (fun t => includesStr (lowerStr t.title) q)
  else
    shown

/-- Update the first element satisfying `p` (the `findIndex` / assign-at-index
pattern of the source); no-op when no element matches. -/
def updateFirst (p : Item → Bool) (f : Item → Item) : List Item → List Item
  | [] => []
  | t :: ts => if p t then f t :: ts else t :: updateFirst p f ts

/-- `todos[idx].title = value` after `idx = todos.findIndex(t => t.id === editingId)`
(src/index.js lines 154–156). -/
def updateTitle (eid : Str) (value : Str) (todos : List Item) : List Item :=
  updateFirst (fun t => t.id == eid) (fun t => { t with title := value }) todos

/-- `todos[idx].completed = chk.checked` after
`idx = todos.findIndex(t => t.id === item.id)` (src/index.js lines 84–86). -/
def setCompleted (tid : Str) (checked : Bool) (todos : List Item) : List Item :=
  updateFirst (fun t => t.id == tid) (fun t => { t with completed := checked }) todos

/-- The form submit handler (src/index.js lines 137–165), up to but not
including the persistence/render calls.  `editingId = none` is add mode,
`editingId = some e` is edit mode.  `newId` stands for the value `uid()`
would produce.  Errors map the `alert` + early-return paths. -/
def formSubmit (todos : List Item) (editingId : Option Str) (newId : Str)
    (input : Str) : Except Err (List Item × Option Str) :=
  let value := trimStr input
  if value = [] then
    Except.error Err.EmptyTitle
  else if todos.any (fun t => lowerStr t.title == lowerStr value && some t.id != editingId) then
    Except.error Err.DuplicateTitle
  else
    match editingId with
    | some e =>
        Except.ok (updateTitle e value todos,
          if todos.any (fun t => t.id == e) then none else some e)
    | none =>
        Except.ok ({ id := newId, title := value, completed := false } :: todos, none)

/-- The reorder reconciliation in the sortable `onEnd` handler
(src/index.js lines 217–232): items looked up by the DOM order first
(`newTodos`), then the items not shown, in their original order (`rest`). -/
def reconcile (todos : List Item) (orderedIds : List Str) : List Item :=
  let newTodos := orderedIds.filterMap (fun i => todos.find? (fun t => t.id == i))
  let rest := todos.filter (fun t => !(orderedIds.contains t.id))
  newTodos ++ rest

/-- JSON values, the domain of `JSON.parse` / `JSON.stringify`. -/
inductive JValue where
  | jnull
  | jbool (b : Bool)
  | jnum (n : Int)
  | jstr (s : Str)
  | jarr (elems : List JValue)
  | jobj (fields : List (Str × JValue))

/-- JavaScript truthiness of a parsed JSON value (`JSON.parse(raw) || []`). -/
def truthy : JValue → Bool
  | JValue.jnull => false
  | JValue.jbool b => b
  | JValue.jnum n => n != 0
  | JValue.jstr s => !s.isEmpty
  | JValue.jarr _ => true
  | JValue.jobj _ => true

/-- A stored cell: absent key, unparsable text, or a parsed JSON value. -/
abbrev StoredCell := Option (Except Unit JValue)

/-- `loadTodos` (src/index.js lines 28–39): absent key or parse failure
gives `[]`; a parsed value `v` gives `v || []`, i.e. `v` itself when `v`
is truthy and `[]` otherwise.  The result is whatever JSON value was
stored — the code performs no shape validation. -/
def loadTodos : StoredCell → JValue
  | none => JValue.jarr []
  | some (Except.error _) => JValue.jarr []
  | some (Except.ok v) => if truthy v then v else JValue.jarr []

/-- `JSON.stringify` of one item: object with keys in insertion order. -/
def encodeItem (t : Item) : JValue :=
  JValue.jobj [('i' :: 'd' :: [], JValue.jstr t.id),
               ('t' :: 'i' :: 't' :: 'l' :: 'e' :: [], JValue.jstr t.title),
               ('c' :: 'o' :: 'm' :: 'p' :: 'l' :: 'e' :: 't' :: 'e' :: 'd' :: [], JValue.jbool t.completed)]

/-- `JSON.stringify(todos)` at the JSON-value level. -/
def encodeTodos (todos : List Item) : JValue :=
  JValue.jarr (todos.map encodeItem)

/-- Read one item back from a JSON value; `none` when the value is not a
well-formed item record. -/
def decodeItem : JValue → Option Item
  | JValue.jobj [(k1, JValue.jstr i), (k2, JValue.jstr t), (k3, JValue.jbool c)] =>
      if k1 = 'i' :: 'd' :: [] ∧ k2 = 't' :: 'i' :: 't' :: 'l' :: 'e' :: [] ∧
         k3 = 'c' :: 'o' :: 'm' :: 'p' :: 'l' :: 'e' :: 't' :: 'e' :: 'd' :: [] then
        some { id := i, title := t, completed := c }
      else none
  | _ => none

/-- Decode a list of JSON values as items; fails if any element fails. -/
def decodeList : List JValue → Option (List Item)
  | [] => some []
  | x :: xs =>
      match decodeItem x, decodeList xs with
      | some t, some ts => some (t :: ts)
      | _, _ => none

/-- Read a whole collection back from a JSON value. -/
def decodeTodos : JValue → Option (List Item)
  | JValue.jarr xs => decodeList xs
  | _ => none

/-- A JSON value is a well-formed collection when it is an array whose
every element decodes to an item. -/
def isCollection (v : JValue) : Bool := (decodeTodos v).isSome

/-- `saveTodos` (src/index.js lines 42–44): overwrite the store with the
serialized collection. -/
def saveTodos (todos : List Item) : StoredCell :=
  some (Except.ok (encodeTodos todos))

/-- The mutable application state: the collection, the edit target, and the
durable store contents. -/
structure AppState where
  todos : List Item
  editingId : Option Str
  stored : StoredCell

/-- The submit handler as a state transition: the error paths return before
touching anything; the success path installs the new collection, the new
edit target, and persists. -/
def submitStep (s : AppState) (newId input : Str) : AppState :=
  match formSubmit s.todos s.editingId newId input with
  | Except.error _ => s
  | Except.ok (ts, eid) => { todos := ts, editingId := eid, stored := saveTodos ts }

/-- The checkbox change handler (src/index.js lines 82–90): only acts — and
only persists — when the id is found. -/
def chkStep (s : AppState) (tid : Str) (checked : Bool) : AppState :=
  if s.todos.any (fun t => t.id == tid) then
    let ts := setCompleted tid checked s.todos
    { s with todos := ts, stored := saveTodos ts }
  else s

/-- The delete handler (src/index.js lines 114–119): behind a confirm
prompt, remove the item by id and persist. -/
def delStep (s : AppState) (tid : Str) (confirmed : Bool) : AppState :=
  if confirmed then
    let ts := s.todos.filter (fun t => !(t.id == tid))
    { s with todos := ts, stored := saveTodos ts }
  else s

/-- The clear-all handler (src/index.js lines 201–206). -/
def clearStep (s : AppState) (confirmed : Bool) : AppState :=
  if confirmed then { s with todos := [], stored := saveTodos [] }
  else s

/-- `startEdit` (src/index.js lines 173–182): only sets the edit target
when the id exists. -/
def startEditStep (s : AppState) (tid : Str) : AppState :=
  if s.todos.any (fun t => t.id == tid) then { s with editingId := some tid }
  else s

/-- The sortable `onEnd` handler (src/index.js lines 214–235): reconcile
the DOM order with the collection and persist. -/
def sortEndStep (s : AppState) (orderedIds : List Str) : AppState :=
  { s with todos := reconcile s.todos orderedIds,
           stored := saveTodos (reconcile s.todos orderedIds) }

/-- One user event, with the environment facts the host guarantees:
a fresh id from `uid()` for a submit, and for a drag end a DOM order that
is a permutation of the ids of the projection rendered before the drag. -/
inductive Step : AppState → AppState → Prop where
  | submit (s : AppState) (newId input : Str)
      (hfresh : newId ∉ s.todos.map Item.id) :
      Step s (submitStep s newId input)
  | chk (s : AppState) (tid : Str) (checked : Bool) :
      Step s (chkStep s tid checked)
  | del (s : AppState) (tid : Str) (confirmed : Bool) :
      Step s (delStep s tid confirmed)
  | clearAll (s : AppState) (confirmed : Bool) :
      Step s (clearStep s confirmed)
  | startEdit (s : AppState) (tid : Str) :
      Step s (startEditStep s tid)
  | sortEnd (s : AppState) (f : Filter) (q : Str) (orderedIds : List Str)
      (horder : orderedIds.Perm ((project s.todos f q).map Item.id)) :
      Step s (sortEndStep s orderedIds)

/-- States reachable from `s` through user events. -/
def Reachable (s s' : AppState) : Prop := Relation.ReflTransGen Step s s'

/-- Invariant I1 of the specification: no two items share a title that is
equal after trimming and lowering. -/
def I1 (todos : List Item) : Prop :=
  (todos.map (fun t => lowerStr (trimStr t.title))).Nodup

/-- The well-formedness the data model maintains: unique ids, titles stored
trimmed and non-empty, and pairwise distinct lowercased titles. -/
def Inv (todos : List Item) : Prop :=
  (todos.map Item.id).Nodup ∧
  (∀ t ∈ todos, trimStr t.title = t.title) ∧
  (∀ t ∈ todos, t.title ≠ []) ∧
  (todos.map (fun t => lowerStr t.title)).Nodup

/-! ## Helper lemmas -/

theorem dropWhile_self (p : α → Bool) (l : List α) :
    (l.dropWhile p).dropWhile p = l.dropWhile p := by
  induction l with
  | nil => rfl
  | cons a l ih =>
      by_cases h : p a
      · simp [List.dropWhile_cons, h, ih]
      · simp [List.dropWhile_cons, h]

theorem dropWhile_head_false (p : α → Bool) (l : List α) (c : α) (rest : List α)
    (h : l.dropWhile p = c :: rest) : p c = false := by
  induction l with
  | nil => simp at h
  | cons a l ih =>
      by_cases ha : p a
      · rw [List.dropWhile_cons_of_pos ha] at h
        exact ih h
      · rw [List.dropWhile_cons_of_neg ha] at h
        cases h
        simpa using ha

theorem dropWhile_toSuffix (p : α → Bool) (l : List α) :
    ∃ w, l = w ++ l.dropWhile p := by
  induction l with
  | nil => exact ⟨[], rfl⟩
  | cons a l ih =>
      by_cases ha : p a
      · obtain ⟨w, hw⟩ := ih
        exact ⟨a :: w, by simpa [List.dropWhile_cons_of_pos ha] using hw⟩
      · exact ⟨[], by simp [List.dropWhile_cons_of_neg ha]⟩

theorem trimStr_idem (s : Str) : trimStr (trimStr s) = trimStr s := by
  unfold trimStr
  set u := s.dropWhile isWS with hu
  set v := (u.reverse).dropWhile isWS with hv
  -- dropping leading whitespace from `v.reverse` does nothing: its head is
  -- the head of `u`, which `dropWhile` already cleared of whitespace
  have hA : v.reverse.dropWhile isWS = v.reverse := by
    cases hvr : v.reverse with
    | nil => rfl
    | cons c rest =>
        obtain ⟨w, hw⟩ := dropWhile_toSuffix isWS u.reverse
        have hurev : u = v.reverse ++ w.reverse := by
          have := congrArg List.reverse hw
          simpa [hv] using this
        have hhead : u.dropWhile isWS = u := dropWhile_self isWS s
        have hc : isWS c = false := by
          have hcons : u = c :: (rest ++ w.reverse) := by simp [hurev, hvr]
          exact dropWhile_head_false isWS u c (rest ++ w.reverse) (by rw [hhead]; exact hcons)
        exact List.dropWhile_cons_of_neg (by simp [hc])
  rw [hA, List.reverse_reverse, dropWhile_self]

theorem updateFirst_eq_self (p : Item → Bool) (f : Item → Item) (ts : List Item)
    (h : ∀ t ∈ ts, p t = false) : updateFirst p f ts = ts := by
  induction ts with
  | nil => rfl
  | cons t ts ih =>
      have ht : p t = false := h t (List.mem_cons_self t ts)
      simp only [updateFirst]
      rw [if_neg (by simp [ht]), ih (fun t' ht' => h t' (List.mem_cons_of_mem _ ht'))]

theorem updateFirst_map_invariant (p : Item → Bool) (f : Item → Item)
    (g : Item → β) (hg : ∀ t, g (f t) = g t) (ts : List Item) :
    (updateFirst p f ts).map g = ts.map g := by
  induction ts with
  | nil => rfl
  | cons t ts ih =>
      by_cases h : p t
      · simp [updateFirst, h, hg]
      · simp [updateFirst, h, ih]

theorem updateFirst_id_eq_map (f : Item → Item) (e : Str) (ts : List Item)
    (hnd : (ts.map Item.id).Nodup) :
    updateFirst (fun t => t.id == e) f ts
      = ts.map (fun t => if t.id = e then f t else t) := by
  induction ts with
  | nil => rfl
  | cons t ts ih =>
      simp only [List.map_cons, List.nodup_cons] at hnd
      simp only [updateFirst, List.map_cons]
      by_cases h : t.id = e
      · rw [if_pos (by simp [h]), if_pos h]
        have h1 : ∀ a ∈ ts, (if a.id = e then f a else a) = id a := by
          intro a ha
          have hne : a.id ≠ e := by
            intro heq
            exact hnd.1 (by rw [h, ← heq]; exact List.mem_map_of_mem Item.id ha)
          simp [hne]
        rw [List.map_congr_left h1, List.map_id]
      · rw [if_neg (by simp [h]), if_neg h, ih hnd.2]

theorem find?_id_of_mem (ts : List Item) (i : Str) (u : Item)
    (hnd : (ts.map Item.id).Nodup) (hu : u ∈ ts) (hid : u.id = i) :
    ts.find? (fun t => t.id == i) = some u := by
  induction ts with
  | nil => simp at hu
  | cons t ts ih =>
      simp only [List.map_cons, List.nodup_cons] at hnd
      rcases List.mem_cons.mp hu with h | h
      · subst h
        have hb : (u.id == i) = true := by simp [hid]
        rw [List.find?_cons, hb]
      · have hne : t.id ≠ i := by
          intro heq
          exact hnd.1 (by rw [heq, ← hid]; exact List.mem_map_of_mem Item.id h)
        have hb : (t.id == i) = false := by simp [hne]
        rw [List.find?_cons, hb]
        exact ih hnd.2 h

theorem find?_id_spec (ts : List Item) (i : Str) (u : Item)
    (h : ts.find? (fun t => t.id == i) = some u) : u ∈ ts ∧ u.id = i :=
  ⟨List.mem_of_find?_eq_some h, by simpa using List.find?_some h⟩

/-- The first block built by the `onEnd` handler: the items looked up from
the DOM order. -/
def visiblePart (todos : List Item) (orderedIds : List Str) : List Item :=
  orderedIds.filterMap (fun i => todos.find? (fun t => t.id == i))

theorem visiblePart_map_id (ts : List Item) (vo : List Str)
    (hmem : ∀ i ∈ vo, ∃ t ∈ ts, t.id = i) :
    (visiblePart ts vo).map Item.id = vo := by
  induction vo with
  | nil => rfl
  | cons i vo ih =>
      obtain ⟨t, ht, hid⟩ := hmem i (by simp)
      have hsome : (ts.find? (fun t => t.id == i)).isSome := by
        rw [List.find?_isSome]
        exact ⟨t, ht, by simp [hid]⟩
      obtain ⟨u, hu⟩ := Option.isSome_iff_exists.mp hsome
      have := find?_id_spec ts i u hu
      simp only [visiblePart, List.filterMap_cons, hu, List.map_cons]
      rw [this.2]
      exact congrArg (i :: ·) (ih (fun j hj => hmem j (List.mem_cons_of_mem _ hj)))

theorem visiblePart_mem (ts : List Item) (vo : List Str) (t : Item)
    (hnd : (ts.map Item.id).Nodup) :
    t ∈ visiblePart ts vo ↔ t ∈ ts ∧ t.id ∈ vo := by
  constructor
  · intro h
    obtain ⟨i, hi, hfind⟩ := List.mem_filterMap.mp h
    obtain ⟨hmem, hid⟩ := find?_id_spec ts i t hfind
    exact ⟨hmem, hid ▸ hi⟩
  · intro ⟨hmem, hid⟩
    exact List.mem_filterMap.mpr ⟨t.id, hid, find?_id_of_mem ts t.id t hnd hmem rfl⟩

theorem reconcile_eq_append (ts : List Item) (vo : List Str) :
    reconcile ts vo = visiblePart ts vo ++ ts.filter (fun t => !(vo.contains t.id)) := rfl

theorem reconcile_perm (ts : List Item) (vo : List Str)
    (hnd : (ts.map Item.id).Nodup) (hvnd : vo.Nodup)
    (hsub : ∀ i ∈ vo, i ∈ ts.map Item.id) :
    List.Perm (reconcile ts vo) ts := by
  have hmem : ∀ i ∈ vo, ∃ t ∈ ts, t.id = i := by
    intro i hi
    obtain ⟨t, ht, hid⟩ := List.mem_map.mp (hsub i hi)
    exact ⟨t, ht, hid⟩
  have hmapid : (visiblePart ts vo).map Item.id = vo := visiblePart_map_id ts vo hmem
  have hvisnd : (visiblePart ts vo).Nodup := by
    have : ((visiblePart ts vo).map Item.id).Nodup := by rw [hmapid]; exact hvnd
    exact List.Nodup.of_map _ this
  have htsnd : ts.Nodup := List.Nodup.of_map _ hnd
  have hfilnd : (ts.filter (fun t => vo.contains t.id)).Nodup :=
    htsnd.sublist (List.filter_sublist ts)
  have hvisperm : List.Perm (visiblePart ts vo) (ts.filter (fun t => vo.contains t.id)) := by
    rw [List.perm_ext_iff_of_nodup hvisnd hfilnd]
    intro t
    rw [visiblePart_mem ts vo t hnd, List.mem_filter]
    simp [List.contains, List.elem_iff]
  have h1 : List.Perm (visiblePart ts vo ++ ts.filter (fun t => !(vo.contains t.id)))
      (ts.filter (fun t => vo.contains t.id) ++ ts.filter (fun t => !(vo.contains t.id))) :=
    hvisperm.append_right _
  have h2 : List.Perm (ts.filter (fun t => vo.contains t.id) ++ ts.filter (fun t => !(vo.contains t.id))) ts :=
    List.filter_append_perm _ ts
  exact (reconcile_eq_append ts vo) ▸ (h1.trans h2)

theorem ite_filter_sublist {c : Prop} [Decidable c] (p : Item → Bool) {m l : List Item}
    (h : List.Sublist m l) : List.Sublist (if c then m.filter p else m) l := by
  split
  · exact (List.filter_sublist m).trans h
  · exact h

theorem project_sublist (todos : List Item) (f : Filter) (q : Str) :
    List.Sublist (project todos f q) todos := by
  unfold project
  exact ite_filter_sublist _ (ite_filter_sublist _ (ite_filter_sublist _ (List.Sublist.refl todos)))

/-- The status-filter predicate, as §4.2 words it. -/
def statusKeep (f : Filter) (t : Item) : Bool :=
  match f with
  | Filter.all => true
  | Filter.active => !t.completed
  | Filter.completed => t.completed

/-- The search predicate, as §4.2 words it: an empty trimmed query keeps
everything, otherwise case-insensitive substring containment. -/
def searchKeep (q : Str) (t : Item) : Bool :=
  (trimStr q).isEmpty || includesStr (lowerStr t.title) (lowerStr (trimStr q))

/-! ## Claim theorems -/

/-- C1: for every collection and every `visibleOrder` that is a permutation
of the ids of the projected subsequence, `reconcile` returns
`reorderedVisible ++ hidden`: a block `vis` of visible items carrying exactly
the ids of `visibleOrder` in its order (and holding, up to permutation,
exactly the projected items), followed by all items whose id is not in
`visibleOrder`, in their original relative order from the collection. -/
theorem reconcile_visible_then_hidden (todos : List Item) (f : Filter) (q : Str)
    (vo : List Str) (hnd : (todos.map Item.id).Nodup)
    (hvo : List.Perm vo ((project todos f q).map Item.id)) :
    ∃ vis, reconcile todos vo = vis ++ todos.filter (fun t => !(vo.contains t.id)) ∧
      vis.map Item.id = vo ∧ List.Perm vis (project todos f q) := by
  have hsub : List.Sublist (project todos f q) todos := project_sublist todos f q
  have hprojnd : ((project todos f q).map Item.id).Nodup := hnd.sublist (hsub.map Item.id)
  have hvnd : vo.Nodup := hvo.nodup_iff.mpr hprojnd
  have hmem : ∀ i ∈ vo, ∃ t ∈ todos, t.id = i := by
    intro i hi
    obtain ⟨t, ht, hid⟩ := List.mem_map.mp (hvo.mem_iff.mp hi)
    exact ⟨t, hsub.subset ht, hid⟩
  refine ⟨visiblePart todos vo, rfl, visiblePart_map_id todos vo hmem, ?_⟩
  have hvisnd : (visiblePart todos vo).Nodup := by
    have : ((visiblePart todos vo).map Item.id).Nodup := by
      rw [visiblePart_map_id todos vo hmem]
      exact hvnd
    exact List.Nodup.of_map _ this
  have hprojnodup : (project todos f q).Nodup := (List.Nodup.of_map _ hnd).sublist hsub
  rw [List.perm_ext_iff_of_nodup hvisnd hprojnodup]
  intro t
  rw [visiblePart_mem todos vo t hnd]
  constructor
  · intro ⟨hts, hid⟩
    obtain ⟨t', ht', hid'⟩ := List.mem_map.mp (hvo.mem_iff.mp hid)
    have : t' = t := List.inj_on_of_nodup_map hnd (hsub.subset ht') hts hid'
    exact this ▸ ht'
  · intro hp
    exact ⟨hsub.subset hp, hvo.mem_iff.mpr (List.mem_map_of_mem Item.id hp)⟩

/-- Scenario items: `A` and `C` active, `B` and `D` completed. -/
def sampleA : Item := { id := ['a'], title := ['A'], completed := false }

def sampleB : Item := { id := ['b'], title := ['B'], completed := true }

def sampleC : Item := { id := ['c'], title := ['C'], completed := false }

def sampleD : Item := { id := ['d'], title := ['D'], completed := true }

/-- The Scenario C collection `[A,B,C,D]`. -/
def sampleTodos : List Item := [sampleA, sampleB, sampleC, sampleD]

/-- Scenario B of §8: with `A`, `C` active and `B` completed, the `active`
projection with an empty query is `[A, C]`. -/
theorem scenarioB_eval :
    project [sampleA, sampleB, sampleC] Filter.active [] = [sampleA, sampleC] := rfl

/-- Scenario C of §8, evaluated: reordering the visible `[C, A]` merges to
`[C, A, B, D]`. -/
theorem scenarioC_eval :
    reconcile sampleTodos [['c'], ['a']] = [sampleC, sampleA, sampleB, sampleD] := rfl

/-- Scenario A of §8, first half, evaluated: adding `Buy milk` to the empty
collection creates the item with `completed = false` at the front. -/
theorem scenarioA_eval :
    formSubmit [] none ['i'] ['B','u','y',' ','m','i','l','k']
      = Except.ok
          ([{ id := ['i']
              title := ['B','u','y',' ','m','i','l','k']
              completed := false }], none) := rfl

/-- C1 witness: Scenario C — collection `[A,B,C,D]` with `B`, `D` completed,
projection under the `active` filter is `[A,C]`, the user order `[C,A]`
yields `[C,A,B,D]`. -/
theorem reconcile_visible_then_hidden_witness :
    ∃ vis, reconcile sampleTodos [['c'], ['a']]
      = vis ++ sampleTodos.filter (fun t => !(List.contains [['c'], ['a']] t.id)) ∧
      vis.map Item.id = [['c'], ['a']] ∧
      List.Perm vis (project sampleTodos Filter.active []) :=
  reconcile_visible_then_hidden sampleTodos Filter.active [] [['c'], ['a']]
    (by decide) (by decide)

/-- C2: for a collection with distinct ids and a `visibleOrder` that is a
duplicate-free list of ids drawn from it, `reconcile` keeps the same id
multiset (the id lists before and after are permutations), the same length,
and the same id set. -/
theorem reconcile_conservation (todos : List Item) (vo : List Str)
    (hnd : (todos.map Item.id).Nodup) (hvnd : vo.Nodup)
    (hsub : ∀ i ∈ vo, i ∈ todos.map Item.id) :
    List.Perm ((reconcile todos vo).map Item.id) (todos.map Item.id) ∧
    (reconcile todos vo).length = todos.length ∧
    (∀ i, i ∈ (reconcile todos vo).map Item.id ↔ i ∈ todos.map Item.id) := by
  have hp := reconcile_perm todos vo hnd hvnd hsub
  exact ⟨hp.map _, hp.length_eq, fun i => (hp.map Item.id).mem_iff⟩

/-- C2 witness: reordering the single visible id `b` in the sample
collection conserves ids, length and the id set. -/
theorem reconcile_conservation_witness :
    List.Perm ((reconcile sampleTodos [['b']]).map Item.id) (sampleTodos.map Item.id) ∧
    (reconcile sampleTodos [['b']]).length = sampleTodos.length ∧
    (∀ i, i ∈ (reconcile sampleTodos [['b']]).map Item.id ↔
      i ∈ sampleTodos.map Item.id) :=
  reconcile_conservation sampleTodos [['b']] (by decide) (by decide) (by decide)

/-- C7: the projection equals a single pass keeping exactly the items that
pass the status filter and, when the trimmed query is non-empty, whose
lowercased title contains the lowercased trimmed query; and it is a
subsequence of the collection (filtering never reorders).  Purity is
inherent: `project` is a function of its arguments and leaves `todos`
untouched. -/
theorem project_characterization (todos : List Item) (f : Filter) (q : Str) :
    project todos f q = todos.filter (fun t => statusKeep f t && searchKeep q t) ∧
    List.Sublist (project todos f q) todos := by
  refine ⟨?_, project_sublist todos f q⟩
  by_cases hq : trimStr q = []
  · have hemp : (trimStr q).isEmpty = true := by simp [List.isEmpty_iff, hq]
    cases f <;>
      simp [project, hq, statusKeep, searchKeep, hemp, List.filter_eq_self]
  · have hemp : (trimStr q).isEmpty = false := by simp [List.isEmpty_iff, hq]
    cases f with
    | all =>
        simp only [project, statusKeep, searchKeep, hemp, Bool.false_or, Bool.true_and]
        rw [if_neg (show ¬(Filter.all = Filter.active) from fun h => Filter.noConfusion h),
            if_neg (show ¬(Filter.all = Filter.completed) from fun h => Filter.noConfusion h),
            if_pos hq]
    | active =>
        simp only [project, statusKeep, searchKeep, hemp, Bool.false_or]
        rw [if_pos hq,
            if_neg (show ¬(Filter.active = Filter.completed) from fun h => Filter.noConfusion h),
            if_pos True.intro, List.filter_filter]
        exact List.filter_congr (fun t ht => Bool.and_comm _ _)
    | completed =>
        simp only [project, statusKeep, searchKeep, hemp, Bool.false_or]
        rw [if_pos hq, if_pos True.intro, List.filter_filter]
        exact List.filter_congr (fun t ht => Bool.and_comm _ _)

/-- C9: `save` followed by `load` reproduces an equal collection: the stored
value survives the truthiness guard unchanged, and decoding it yields the
same items, in the same order, with the same id, title and completed
fields.  (`JSON.stringify` / `JSON.parse` round-tripping is modelled as the
identity on JSON values.) -/
theorem save_load_roundtrip (todos : List Item) :
    loadTodos (saveTodos todos) = encodeTodos todos ∧
    decodeTodos (encodeTodos todos) = some todos := by
  constructor
  · rfl
  · show decodeList (todos.map encodeItem) = some todos
    induction todos with
    | nil => rfl
    | cons t ts ih =>
        have h1 : decodeItem (encodeItem t) = some t := rfl
        simp only [List.map_cons, decodeList, h1, ih]

/-- C3 counterexample: the stored text `"5"` parses to the JSON number `5`,
which is not a well-formed collection; `loadTodos` keeps it as-is (it is
truthy), so a malformed-but-parseable stored value does not degrade to the
empty collection. -/
theorem load_malformed_counterexample :
    loadTodos (some (Except.ok (JValue.jnum 5))) = JValue.jnum 5 ∧
    isCollection (JValue.jnum 5) = false ∧
    loadTodos (some (Except.ok (JValue.jnum 5))) ≠ JValue.jarr [] := by
  refine ⟨rfl, rfl, ?_⟩
  intro h
  rw [show loadTodos (some (Except.ok (JValue.jnum 5))) = JValue.jnum 5 from rfl] at h
  exact JValue.noConfusion h

/-- C3 amended: `load` never raises (it is total) and returns the empty
collection when the stored value is absent, fails to parse, or parses to a
falsy value; but a parsed truthy value is returned unchanged even when it
is not a well-formed collection. -/
theorem load_amended (cell : StoredCell) :
    (cell = none → loadTodos cell = JValue.jarr []) ∧
    (∀ e, cell = some (Except.error e) → loadTodos cell = JValue.jarr []) ∧
    (∀ v, cell = some (Except.ok v) → truthy v = false → loadTodos cell = JValue.jarr []) ∧
    (∀ v, cell = some (Except.ok v) → truthy v = true → loadTodos cell = v) := by
  refine ⟨?_, ?_, ?_, ?_⟩
  · intro h; rw [h]; rfl
  · intro e h; rw [h]; rfl
  · intro v h hv; rw [h]; simp [loadTodos, hv]
  · intro v h hv; rw [h]; simp [loadTodos, hv]

/-- C3 witness: a stored cell holding parsed `null` (falsy) loads as the
empty collection. -/
theorem load_amended_witness :
    truthy JValue.jnull = false ∧
    loadTodos (some (Except.ok JValue.jnull)) = JValue.jarr [] :=
  ⟨rfl, (load_amended (some (Except.ok JValue.jnull))).2.2.1 JValue.jnull rfl rfl⟩

/-- C4: over a collection whose titles are stored trimmed (as the data
model guarantees), `add` — the submit handler with no edit target — trims
the input, fails `EmptyTitle` when the trimmed result is empty, fails
`DuplicateTitle` when some existing item's normalized title matches
case-insensitively, and otherwise inserts a new item with
`completed = false` at the front of the collection and persists the new
collection. -/
theorem add_behavior (todos : List Item) (nid input : Str)
    (htrimmed : ∀ t ∈ todos, trimStr t.title = t.title) :
    (trimStr input = [] → formSubmit todos none nid input = Except.error Err.EmptyTitle) ∧
    (trimStr input ≠ [] →
      (∃ t ∈ todos, lowerStr (trimStr t.title) = lowerStr (trimStr input)) →
      formSubmit todos none nid input = Except.error Err.DuplicateTitle) ∧
    (trimStr input ≠ [] →
      (∀ t ∈ todos, lowerStr (trimStr t.title) ≠ lowerStr (trimStr input)) →
      formSubmit todos none nid input =
        Except.ok ({ id := nid, title := trimStr input, completed := false } :: todos, none)) ∧
    (∀ (st : StoredCell) (ts : List Item) (eid2 : Option Str),
      formSubmit todos none nid input = Except.ok (ts, eid2) →
      submitStep ⟨todos, none, st⟩ nid input = ⟨ts, eid2, saveTodos ts⟩) := by
  refine ⟨?_, ?_, ?_, ?_⟩
  · intro ha
    simp [formSubmit, ha]
  · intro hne hdup
    have hany : (todos.any fun t =>
        lowerStr t.title == lowerStr (trimStr input) && some t.id != (none : Option Str)) = true := by
      rw [List.any_eq_true]
      obtain ⟨t, ht, hl⟩ := hdup
      refine ⟨t, ht, ?_⟩
      rw [htrimmed t ht] at hl
      simp [hl]
    simp [formSubmit, hne, hany]
  · intro hne hno
    have hany : (todos.any fun t =>
        lowerStr t.title == lowerStr (trimStr input) && some t.id != (none : Option Str)) = false := by
      rw [List.any_eq_false]
      intro t ht
      have := hno t ht
      rw [htrimmed t ht] at this
      simp [this]
    simp [formSubmit, hne, hany]
  · intro st ts eid2 h
    simp [submitStep, h]

/-- C4 witness: Scenario A — with `Buy milk` present, submitting `BUY MILK`
fails `DuplicateTitle`. -/
theorem add_behavior_witness :
    formSubmit [{ id := ['i'], title := ['B','u','y',' ','m','i','l','k'], completed := false }]
        none ['j'] ['B','U','Y',' ','M','I','L','K'] = Except.error Err.DuplicateTitle :=
  (add_behavior [{ id := ['i'], title := ['B','u','y',' ','m','i','l','k'], completed := false }]
    ['j'] ['B','U','Y',' ','M','I','L','K'] (by decide)).2.1 (by decide) (by decide)

/-- C5: for an id present in a well-formed collection, `edit` — the submit
handler with that id as edit target — applies the same trimming and
emptiness rules as `add`, excludes the edited item itself from the
duplicate check (a case-insensitive collision with a different item fails
`DuplicateTitle`, and editing an item to its own current title succeeds
and leaves the collection unchanged), and on success rewrites exactly the
matching item's title in place, preserving every id, every completed flag
and the order. -/
theorem edit_behavior (todos : List Item) (eid nid input : Str) (u : Item)
    (hnd : (todos.map Item.id).Nodup)
    (hu : u ∈ todos) (huid : u.id = eid)
    (htrimmed : ∀ t ∈ todos, trimStr t.title = t.title) :
    (trimStr input = [] → formSubmit todos (some eid) nid input = Except.error Err.EmptyTitle) ∧
    (trimStr input ≠ [] →
      (∃ t ∈ todos, t.id ≠ eid ∧ lowerStr (trimStr t.title) = lowerStr (trimStr input)) →
      formSubmit todos (some eid) nid input = Except.error Err.DuplicateTitle) ∧
    (trimStr input ≠ [] →
      (∀ t ∈ todos, t.id ≠ eid → lowerStr (trimStr t.title) ≠ lowerStr (trimStr input)) →
      formSubmit todos (some eid) nid input
          = Except.ok (updateTitle eid (trimStr input) todos, none) ∧
      updateTitle eid (trimStr input) todos
          = todos.map (fun t => if t.id = eid then { t with title := trimStr input } else t) ∧
      (updateTitle eid (trimStr input) todos).map (fun t => (t.id, t.completed))
          = todos.map (fun t => (t.id, t.completed))) ∧
    ((todos.map (fun t => lowerStr t.title)).Nodup → trimStr input = u.title →
      u.title ≠ [] →
      formSubmit todos (some eid) nid input = Except.ok (todos, none)) := by
  have hfound : (todos.any fun t => t.id == eid) = true := by
    rw [List.any_eq_true]
    exact ⟨u, hu, by simp [huid]⟩
  refine ⟨?_, ?_, ?_, ?_⟩
  · intro ha
    simp [formSubmit, ha]
  · intro hne hdup
    have hany : (todos.any fun t =>
        lowerStr t.title == lowerStr (trimStr input) && some t.id != some eid) = true := by
      rw [List.any_eq_true]
      obtain ⟨t, ht, hid, hl⟩ := hdup
      refine ⟨t, ht, ?_⟩
      rw [htrimmed t ht] at hl
      simp [hl, hid]
    simp [formSubmit, hne, hany]
  · intro hne hno
    have hany : (todos.any fun t =>
        lowerStr t.title == lowerStr (trimStr input) && some t.id != some eid) = false := by
      rw [List.any_eq_false]
      intro t ht
      by_cases hid : t.id = eid
      · simp [hid]
      · have := hno t ht hid
        rw [htrimmed t ht] at this
        simp [this, hid]
    refine ⟨?_, updateFirst_id_eq_map _ eid todos hnd, ?_⟩
    · simp [formSubmit, hne, hany, hfound]
    · exact updateFirst_map_invariant (fun t => t.id == eid)
        (fun t => { t with title := trimStr input })
        (fun t => (t.id, t.completed)) (fun t => rfl) todos
  · intro hlow hinput hne'
    have hne : trimStr input ≠ [] := by rw [hinput]; exact hne'
    have hany : (todos.any fun t =>
        lowerStr t.title == lowerStr (trimStr input) && some t.id != some eid) = false := by
      rw [List.any_eq_false]
      intro t ht
      by_cases hid : t.id = eid
      · simp [hid]
      · have hneq : lowerStr t.title ≠ lowerStr (trimStr input) := by
          rw [hinput]
          intro heq
          have : t = u := List.inj_on_of_nodup_map hlow ht hu heq
          exact hid (by rw [this]; exact huid)
        simp [hneq, hid]
    have hupd : updateTitle eid (trimStr input) todos = todos := by
      have hmap : updateTitle eid u.title todos
          = todos.map (fun t => if t.id = eid then { t with title := u.title } else t) :=
        updateFirst_id_eq_map _ eid todos hnd
      rw [hinput, hmap]
      have h1 : ∀ t ∈ todos, (if t.id = eid then { t with title := u.title } else t) = id t := by
        intro t ht
        by_cases hid : t.id = eid
        · have : t = u := List.inj_on_of_nodup_map hnd ht hu (by rw [hid, huid])
          subst this
          rw [if_pos hid]
          rfl
        · simp [hid]
      rw [List.map_congr_left h1, List.map_id]
    have : formSubmit todos (some eid) nid input
        = Except.ok (updateTitle eid (trimStr input) todos, none) := by
      simp [formSubmit, hne, hany, hfound]
    rw [this, hupd]

/-- C5 witness: Scenario E — editing item `a` to `  SAME  ` collides with
item `b`'s title `same` and fails `DuplicateTitle`, while editing `a` to
its own current title `x` succeeds and changes nothing. -/
theorem edit_behavior_witness :
    formSubmit [{ id := ['a'], title := ['x'], completed := false },
                { id := ['b'], title := ['s','a','m','e'], completed := false }]
        (some ['a']) ['j'] [' ','S','A','M','E',' '] = Except.error Err.DuplicateTitle ∧
    formSubmit [{ id := ['a'], title := ['x'], completed := false },
                { id := ['b'], title := ['s','a','m','e'], completed := false }]
        (some ['a']) ['j'] ['x']
      = Except.ok ([{ id := ['a'], title := ['x'], completed := false },
                    { id := ['b'], title := ['s','a','m','e'], completed := false }], none) :=
  ⟨(edit_behavior _ ['a'] ['j'] [' ','S','A','M','E',' ']
      { id := ['a'], title := ['x'], completed := false }
      (by decide) (by decide) (by decide) (by decide)).2.1 (by decide) (by decide),
   (edit_behavior _ ['a'] ['j'] ['x']
      { id := ['a'], title := ['x'], completed := false }
      (by decide) (by decide) (by decide) (by decide)).2.2.2 (by decide) (by decide) (by decide)⟩

/-- C6: every failing operation leaves state unchanged — a submit that
errors (EmptyTitle or DuplicateTitle, in add or edit mode) returns the
state untouched, a checkbox change whose id is not in the collection is a
no-op, and a delete whose id is not in the collection keeps the collection
unchanged. -/
theorem errors_no_mutation :
    (∀ (s : AppState) (nid input : Str) (e : Err),
      formSubmit s.todos s.editingId nid input = Except.error e →
      submitStep s nid input = s) ∧
    (∀ (s : AppState) (tid : Str) (checked : Bool),
      (∀ t ∈ s.todos, t.id ≠ tid) → chkStep s tid checked = s) ∧
    (∀ (s : AppState) (tid : Str),
      (∀ t ∈ s.todos, t.id ≠ tid) → (delStep s tid true).todos = s.todos) := by
  refine ⟨?_, ?_, ?_⟩
  · intro s nid input e h
    simp [submitStep, h]
  · intro s tid checked h
    have hany : (s.todos.any fun t => t.id == tid) = false := by
      rw [List.any_eq_false]
      intro t ht
      simp [h t ht]
    simp [chkStep, hany]
  · intro s tid h
    have : ∀ t ∈ s.todos, (!(t.id == tid)) = true := by
      intro t ht
      simp [h t ht]
    simp [delStep, List.filter_eq_self.mpr this]

/-- C6 witness: submitting a blank title over the sample state, toggling a
missing id, and deleting a missing id all leave the collection unchanged. -/
theorem errors_no_mutation_witness :
    submitStep ⟨sampleTodos, none, none⟩ ['j'] [' '] = ⟨sampleTodos, none, none⟩ ∧
    chkStep ⟨sampleTodos, none, none⟩ ['z'] true = ⟨sampleTodos, none, none⟩ ∧
    (delStep ⟨sampleTodos, none, none⟩ ['z'] true).todos = sampleTodos :=
  ⟨errors_no_mutation.1 ⟨sampleTodos, none, none⟩ ['j'] [' '] Err.EmptyTitle rfl,
   errors_no_mutation.2.1 ⟨sampleTodos, none, none⟩ ['z'] true (by decide),
   errors_no_mutation.2.2 ⟨sampleTodos, none, none⟩ ['z'] (by decide)⟩

/-- C10: for a collection with distinct ids containing the toggled id, the
checkbox handler rewrites exactly the matching item's `completed` field to
the checkbox state and leaves every id, every title, every other item and
the relative order unchanged. -/
theorem toggle_frame (s : AppState) (tid : Str) (checked : Bool)
    (hnd : (s.todos.map Item.id).Nodup) (hmem : tid ∈ s.todos.map Item.id) :
    (chkStep s tid checked).todos
        = s.todos.map (fun t => if t.id = tid then { t with completed := checked } else t) ∧
    (chkStep s tid checked).todos.map (fun t => (t.id, t.title))
        = s.todos.map (fun t => (t.id, t.title)) := by
  have hany : (s.todos.any fun t => t.id == tid) = true := by
    rw [List.any_eq_true]
    obtain ⟨t, ht, hid⟩ := List.mem_map.mp hmem
    exact ⟨t, ht, by simp [hid]⟩
  have htodos : (chkStep s tid checked).todos = setCompleted tid checked s.todos := by
    simp [chkStep, hany]
  constructor
  · rw [htodos]
    exact updateFirst_id_eq_map _ tid s.todos hnd
  · rw [htodos]
    exact updateFirst_map_invariant (fun t => t.id == tid)
      (fun t => { t with completed := checked })
      (fun t => (t.id, t.title)) (fun t => rfl) s.todos

theorem Inv_of_perm (ts' ts : List Item) (h : List.Perm ts' ts) (hinv : Inv ts) :
    Inv ts' := by
  obtain ⟨h1, h2, h3, h4⟩ := hinv
  exact ⟨(h.map Item.id).nodup_iff.mpr h1,
    fun t ht => h2 t (h.mem_iff.mp ht),
    fun t ht => h3 t (h.mem_iff.mp ht),
    (h.map fun t => lowerStr t.title).nodup_iff.mpr h4⟩

theorem Inv_of_sublist (ts' ts : List Item) (h : List.Sublist ts' ts) (hinv : Inv ts) :
    Inv ts' := by
  obtain ⟨h1, h2, h3, h4⟩ := hinv
  exact ⟨h1.sublist (h.map Item.id),
    fun t ht => h2 t (h.subset ht),
    fun t ht => h3 t (h.subset ht),
    h4.sublist (h.map fun t => lowerStr t.title)⟩

theorem forall_title_prop (P : Str → Prop) (ts' ts : List Item)
    (h : ts'.map Item.title = ts.map Item.title)
    (hP : ∀ t ∈ ts, P t.title) : ∀ t ∈ ts', P t.title := by
  intro t' ht'
  have h1 : t'.title ∈ ts'.map Item.title := List.mem_map_of_mem _ ht'
  rw [h] at h1
  obtain ⟨t, ht, hte⟩ := List.mem_map.mp h1
  rw [← hte]
  exact hP t ht

theorem nodup_lower_after_update (e value : Str) (ts : List Item)
    (hnd : (ts.map Item.id).Nodup)
    (hlow : (ts.map fun t => lowerStr t.title).Nodup)
    (hno : ∀ t ∈ ts, t.id ≠ e → lowerStr t.title ≠ lowerStr value) :
    (ts.map fun t => if t.id = e then lowerStr value else lowerStr t.title).Nodup := by
  induction ts with
  | nil => simp
  | cons t ts ih =>
      simp only [List.map_cons, List.nodup_cons] at hnd hlow ⊢
      have hno_t := hno t (List.mem_cons_self t ts)
      have hno_ts : ∀ t' ∈ ts, t'.id ≠ e → lowerStr t'.title ≠ lowerStr value :=
        fun t' ht' => hno t' (List.mem_cons_of_mem _ ht')
      refine ⟨?_, ih hnd.2 hlow.2 hno_ts⟩
      intro hmem
      obtain ⟨t', ht', heq⟩ := List.mem_map.mp hmem
      by_cases hte : t.id = e
      · rw [if_pos hte] at heq
        by_cases ht'e : t'.id = e
        · exact hnd.1 (by rw [hte, ← ht'e]; exact List.mem_map_of_mem Item.id ht')
        · rw [if_neg ht'e] at heq
          exact absurd heq (hno_ts t' ht' ht'e)
      · rw [if_neg hte] at heq
        by_cases ht'e : t'.id = e
        · rw [if_pos ht'e] at heq
          exact absurd heq.symm (hno_t hte)
        · rw [if_neg ht'e] at heq
          exact hlow.1 (by rw [← heq]; exact List.mem_map_of_mem _ ht')

theorem formSubmit_ok (todos : List Item) (eidOpt : Option Str) (nid input : Str)
    (ts : List Item) (eid2 : Option Str)
    (h : formSubmit todos eidOpt nid input = Except.ok (ts, eid2)) :
    trimStr input ≠ [] ∧
    (∀ t ∈ todos, some t.id ≠ eidOpt → lowerStr t.title ≠ lowerStr (trimStr input)) ∧
    ((eidOpt = none ∧ ts = { id := nid, title := trimStr input, completed := false } :: todos) ∨
     (∃ e, eidOpt = some e ∧ ts = updateTitle e (trimStr input) todos)) := by
  simp only [formSubmit] at h
  by_cases h1 : trimStr input = []
  · rw [if_pos h1] at h
    exact absurd h (by simp)
  · rw [if_neg h1] at h
    by_cases h2 : (todos.any fun t =>
        lowerStr t.title == lowerStr (trimStr input) && some t.id != eidOpt) = true
    · rw [if_pos h2] at h
      exact absurd h (by simp)
    · rw [if_neg h2] at h
      rw [Bool.not_eq_true] at h2
      have hno : ∀ t ∈ todos, some t.id ≠ eidOpt →
          lowerStr t.title ≠ lowerStr (trimStr input) := by
        intro t ht hne heq
        have := List.any_eq_false.mp h2 t ht
        rw [heq] at this
        simp [hne] at this
      refine ⟨h1, hno, ?_⟩
      cases eidOpt with
      | none =>
          simp only [Except.ok.injEq, Prod.mk.injEq] at h
          exact Or.inl ⟨rfl, h.1.symm⟩
      | some e =>
          simp only [Except.ok.injEq, Prod.mk.injEq] at h
          exact Or.inr ⟨e, rfl, h.1.symm⟩

theorem step_inv (s s' : AppState) (h : Step s s') (hinv : Inv s.todos) :
    Inv s'.todos := by
  cases h with
  | submit nid input hfresh =>
      cases hfs : formSubmit s.todos s.editingId nid input with
      | error e =>
          simpa [submitStep, hfs] using hinv
      | ok p =>
          obtain ⟨ts, eid2⟩ := p
          have hts : (submitStep s nid input).todos = ts := by simp [submitStep, hfs]
          rw [hts]
          obtain ⟨hne, hnoclash, hcase⟩ := formSubmit_ok s.todos s.editingId nid input ts eid2 hfs
          obtain ⟨hnd, htrim, hnem, hlow⟩ := hinv
          rcases hcase with ⟨heid, hts'⟩ | ⟨e, heid, hts'⟩
          · subst hts'
            rw [heid] at hnoclash
            refine ⟨?_, ?_, ?_, ?_⟩
            · simp only [List.map_cons, List.nodup_cons]
              exact ⟨hfresh, hnd⟩
            · intro t ht
              rcases List.mem_cons.mp ht with rfl | ht
              · exact trimStr_idem input
              · exact htrim t ht
            · intro t ht
              rcases List.mem_cons.mp ht with rfl | ht
              · exact hne
              · exact hnem t ht
            · simp only [List.map_cons, List.nodup_cons]
              refine ⟨?_, hlow⟩
              intro hmem
              obtain ⟨t, ht, heq⟩ := List.mem_map.mp hmem
              exact hnoclash t ht (by simp) heq
          · subst hts'
            rw [heid] at hnoclash
            have hno' : ∀ t ∈ s.todos, t.id ≠ e →
                lowerStr t.title ≠ lowerStr (trimStr input) :=
              fun t ht hid => hnoclash t ht (fun hsome => hid (Option.some.inj hsome))
            have hmap : updateTitle e (trimStr input) s.todos
                = s.todos.map (fun t => if t.id = e then { t with title := trimStr input } else t) :=
              updateFirst_id_eq_map _ e s.todos hnd
            refine ⟨?_, ?_, ?_, ?_⟩
            · rw [show (updateTitle e (trimStr input) s.todos).map Item.id = s.todos.map Item.id
                from updateFirst_map_invariant (fun t => t.id == e)
                  (fun t => { t with title := trimStr input }) Item.id (fun t => rfl) s.todos]
              exact hnd
            · rw [hmap]
              intro t' ht'
              obtain ⟨t, ht, hte⟩ := List.mem_map.mp ht'
              by_cases hid : t.id = e
              · rw [if_pos hid] at hte
                rw [← hte]
                exact trimStr_idem input
              · rw [if_neg hid] at hte
                rw [← hte]
                exact htrim t ht
            · rw [hmap]
              intro t' ht'
              obtain ⟨t, ht, hte⟩ := List.mem_map.mp ht'
              by_cases hid : t.id = e
              · rw [if_pos hid] at hte
                rw [← hte]
                exact hne
              · rw [if_neg hid] at hte
                rw [← hte]
                exact hnem t ht
            · rw [hmap, List.map_map]
              have hF : ∀ t ∈ s.todos, ((fun t => lowerStr t.title) ∘
                  (fun t => if t.id = e then { t with title := trimStr input } else t)) t
                  = (fun t => if t.id = e then lowerStr (trimStr input) else lowerStr t.title) t := by
                intro t ht
                by_cases hid : t.id = e <;> simp [hid]
              rw [List.map_congr_left hF]
              exact nodup_lower_after_update e (trimStr input) s.todos hnd hlow hno'
  | chk tid checked =>
      by_cases hany : (s.todos.any fun t => t.id == tid) = true
      · have hts : (chkStep s tid checked).todos = setCompleted tid checked s.todos := by
          simp [chkStep, hany]
        rw [hts]
        obtain ⟨hnd, htrim, hnem, hlow⟩ := hinv
        have htitle : (setCompleted tid checked s.todos).map Item.title
            = s.todos.map Item.title :=
          updateFirst_map_invariant (fun t => t.id == tid)
            (fun t => { t with completed := checked }) Item.title (fun t => rfl) s.todos
        refine ⟨?_, ?_, ?_, ?_⟩
        · rw [show (setCompleted tid checked s.todos).map Item.id = s.todos.map Item.id
            from updateFirst_map_invariant (fun t => t.id == tid)
              (fun t => { t with completed := checked }) Item.id (fun t => rfl) s.todos]
          exact hnd
        · exact forall_title_prop (fun x => trimStr x = x) _ s.todos htitle htrim
        · exact forall_title_prop (fun x => x ≠ []) _ s.todos htitle hnem
        · rw [show ((setCompleted tid checked s.todos).map fun t => lowerStr t.title)
              = s.todos.map fun t => lowerStr t.title
            from updateFirst_map_invariant (fun t => t.id == tid)
              (fun t => { t with completed := checked })
              (fun t => lowerStr t.title) (fun t => rfl) s.todos]
          exact hlow
      · have : chkStep s tid checked = s := by simp [chkStep, hany]
        rw [this]
        exact hinv
  | del tid confirmed =>
      by_cases hc : confirmed = true
      · have hts : (delStep s tid confirmed).todos
            = s.todos.filter (fun t => !(t.id == tid)) := by
          simp [delStep, hc]
        rw [hts]
        exact Inv_of_sublist _ s.todos (List.filter_sublist s.todos) hinv
      · have : delStep s tid confirmed = s := by
          simp [delStep, hc]
        rw [this]
        exact hinv
  | clearAll confirmed =>
      by_cases hc : confirmed = true
      · have hts : (clearStep s confirmed).todos = [] := by simp [clearStep, hc]
        rw [hts]
        exact Inv_of_sublist [] s.todos (List.nil_sublist s.todos) hinv
      · have : clearStep s confirmed = s := by
          simp [clearStep, hc]
        rw [this]
        exact hinv
  | startEdit tid =>
      have : (startEditStep s tid).todos = s.todos := by
        unfold startEditStep
        split <;> rfl
      rw [this]
      exact hinv
  | sortEnd f q vo horder =>
      have hsubl := project_sublist s.todos f q
      have hprojnd : ((project s.todos f q).map Item.id).Nodup :=
        hinv.1.sublist (hsubl.map Item.id)
      have hvnd : vo.Nodup := horder.nodup_iff.mpr hprojnd
      have hsub : ∀ i ∈ vo, i ∈ s.todos.map Item.id := by
        intro i hi
        exact (hsubl.map Item.id).subset (horder.mem_iff.mp hi)
      exact Inv_of_perm _ s.todos (reconcile_perm s.todos vo hinv.1 hvnd hsub) hinv

theorem reachable_inv (s s' : AppState) (h : Reachable s s') (hinv : Inv s.todos) :
    Inv s'.todos := by
  induction h with
  | refl => exact hinv
  | tail hab hbc ih => exact step_inv _ _ hbc ih

theorem I1_of_inv (ts : List Item) (hinv : Inv ts) : I1 ts := by
  obtain ⟨_, htrim, _, hlow⟩ := hinv
  unfold I1
  rw [List.map_congr_left (fun t ht => by rw [htrim t ht])]
  exact hlow

/-- A stored collection that is perfectly well-formed JSON but violates I1:
two items whose titles `A` and `a` coincide after normalization. -/
def dupTodos : List Item :=
  [{ id := ['a'], title := ['A'], completed := false },
   { id := ['b'], title := ['a'], completed := false }]

/-- C8 counterexample: `load` performs no validation, so a state produced
by `load` can violate I1 — loading the serialized `dupTodos` yields exactly
`dupTodos`, whose two titles are equal after trimming and lowering. -/
theorem load_breaks_I1 :
    loadTodos (some (Except.ok (encodeTodos dupTodos))) = encodeTodos dupTodos ∧
    decodeTodos (encodeTodos dupTodos) = some dupTodos ∧
    ¬ I1 dupTodos := by
  refine ⟨rfl, rfl, ?_⟩
  unfold I1 dupTodos
  decide

/-- C8 amended: I1 does hold in every state reachable through the user
operations (submits with fresh ids, toggles, deletes, clears, edit starts,
and drag ends whose order permutes the current projection's ids) from any
state whose collection satisfies the data-model well-formedness `Inv`;
but states produced by `load` are not validated and need not satisfy I1. -/
theorem reachable_I1 (s s' : AppState) (h : Reachable s s') (hinv : Inv s.todos) :
    I1 s'.todos :=
  I1_of_inv _ (reachable_inv s s' h hinv)

/-- C8 witness: from the empty initial state, one submit of `hi` reaches a
state satisfying I1. -/
theorem reachable_I1_witness :
    I1 (submitStep ⟨[], none, none⟩ ['j'] ['h','i']).todos :=
  reachable_I1 ⟨[], none, none⟩ (submitStep ⟨[], none, none⟩ ['j'] ['h','i'])
    (Relation.ReflTransGen.single
      (Step.submit ⟨[], none, none⟩ ['j'] ['h','i'] (by decide)))
    ⟨List.nodup_nil, fun t ht => absurd ht (List.not_mem_nil t),
     fun t ht => absurd ht (List.not_mem_nil t), List.nodup_nil⟩

/-- C10 witness: toggling item `a` in the sample collection flips only its
completed flag. -/
theorem toggle_frame_witness :
    (chkStep ⟨sampleTodos, none, none⟩ ['a'] true).todos
        = sampleTodos.map (fun t => if t.id = ['a'] then { t with completed := true } else t) ∧
    (chkStep ⟨sampleTodos, none, none⟩ ['a'] true).todos.map (fun t => (t.id, t.title))
        = sampleTodos.map (fun t => (t.id, t.title)) :=
  toggle_frame ⟨sampleTodos, none, none⟩ ['a'] true (by decide) (by decide)

end TodoApp
